import Mathlib

/-!
Verification development for the linkedin-posts pipeline
(fetch → enrich → tweetify/repurpose → publish).

The Python sources are shallowly embedded as executable Lean definitions:
strings are `String`/`List Char`, Python `dict`s from JSON are association
lists `List (String × JVal)`, fallible code returns `Option`/`Except`.
Each definition's doc comment names the source file and lines it embeds.
-/

/-- Python whitespace predicate (`str.isspace`, `str.split()`, `\s` in
regexes), restricted to the ASCII whitespace characters; the repository only
processes model output and JSON, for which this restriction is faithful. -/
def pyIsSpace (c : Char) : Bool :=
  c == ' ' || c == '\t' || c == '\n' || c == '\r' || c == '\x0b' || c == '\x0c'

/-- Python `s.lstrip()` over char lists. -/
def pyLstrip (cs : List Char) : List Char := cs.dropWhile pyIsSpace

/-- Python `s.rstrip(set)` over char lists: remove trailing characters
satisfying `p`. -/
def pyRstripOn (p : Char → Bool) (cs : List Char) : List Char :=
  (cs.reverse.dropWhile p).reverse

/-- Python `s.strip(set)` over char lists: remove leading and trailing
characters satisfying `p`. -/
def pyStripOn (p : Char → Bool) (cs : List Char) : List Char :=
  pyRstripOn p (cs.dropWhile p)

/-- Python `s.strip()` (whitespace on both ends) over char lists. -/
def pyStrip (cs : List Char) : List Char := pyStripOn pyIsSpace cs

/-- Python `s.strip()` at the `String` level. -/
def pyStripS (s : String) : String := String.mk (pyStrip s.data)

/-- Python `s or ""` for a string `s`: the identity on strings, since the
empty string is the only falsy string (kept to mirror the source). -/
def pyOrEmpty (s : String) : String := if s == "" then "" else s

/-- Accumulator for Python `s.split()`: splits a char list at maximal runs
of whitespace, dropping empty pieces; `cur` holds the current word reversed. -/
def wordsAux : List Char → List Char → List (List Char)
  | cur, [] => if cur = [] then [] else [cur.reverse]
  | cur, c :: cs =>
    if pyIsSpace c then
      if cur = [] then wordsAux [] cs else cur.reverse :: wordsAux [] cs
    else wordsAux (c :: cur) cs

/-- Python `s.split()` over char lists. -/
def pySplitWs (cs : List Char) : List (List Char) := wordsAux [] cs

/-- Python `" ".join(words)` over char lists. -/
def joinWords : List (List Char) → List Char
  | [] => []
  | w :: ws => w ++ if ws = [] then [] else ' ' :: joinWords ws

/-- Python `" ".join(s.split())`: collapse every whitespace run to a single
space and drop leading/trailing whitespace. -/
def collapseWs (cs : List Char) : List Char := joinWords (pySplitWs cs)

/-- Python `cut[:cut.rfind(" ")]`, as used in `soft_trim` under the guard
`" " in cut`: keep everything strictly before the last space. (When no
space is present this returns `[]`; every call site guards on membership.) -/
def cutToLastSpace : List Char → List Char
  | [] => []
  | c :: cs => if ' ' ∈ cs then c :: cutToLastSpace cs else []

/-- The trailing characters stripped by `soft_trim`:
`cut.rstrip(" ,.;:!?")`. -/
def trimPunct : List Char := [' ', ',', '.', ';', ':', '!', '?']

/-- The over-limit tail of every `soft_trim` variant (lines 37-40 of
src/tweetify_post.py and the analogous lines of the other two variants):
`cut = t[:limit]`, back up to the last space if the cut contains one, then
`cut.rstrip(" ,.;:!?")`. -/
def trimCut (t : List Char) (limit : Nat) : List Char :=
  if ' ' ∈ t.take limit then
    pyRstripOn (fun c => c ∈ trimPunct) (cutToLastSpace (t.take limit))
  else
    pyRstripOn (fun c => c ∈ trimPunct) (t.take limit)

namespace Tweetify

/-- `soft_trim` of src/tweetify_post.py:33-40: collapse whitespace, return
unchanged if within the limit, otherwise cut at the limit, back up to the
last space if the cut contains one, and strip trailing punctuation. -/
def soft_trim (s : String) (limit : Nat) : String :=
  if (collapseWs s.data).length ≤ limit then String.mk (collapseWs s.data)
  else String.mk (trimCut (collapseWs s.data) limit)

end Tweetify

namespace Enrich

/-- `soft_trim` of src/enrich_post.py:35-42: unlike the tweetify variants it
only strips the ends (`s.strip()`) and does not collapse internal
whitespace; the remainder of the algorithm is identical. -/
def soft_trim (s : String) (limit : Nat) : String :=
  if (pyStrip s.data).length ≤ limit then String.mk (pyStrip s.data)
  else String.mk (trimCut (pyStrip s.data) limit)

end Enrich

namespace Twitter

/-- `soft_trim` of src/Twitter/tweetify_post.py:29-36: identical to the root
variant except for the `(s or "")` guard, which is the identity on
strings. -/
def soft_trim (s : String) (limit : Nat) : String :=
  if (collapseWs (pyOrEmpty s).data).length ≤ limit then
    String.mk (collapseWs (pyOrEmpty s).data)
  else String.mk (trimCut (collapseWs (pyOrEmpty s).data) limit)

end Twitter

section TrimLemmas

/-- `l₁` is an initial segment of `l₂`. -/
def Pref (l₁ l₂ : List Char) : Prop := ∃ t, l₁ ++ t = l₂

theorem prefRefl (l : List Char) : Pref l l := ⟨[], List.append_nil l⟩

theorem prefTrans {a b c : List Char} (h₁ : Pref a b) (h₂ : Pref b c) : Pref a c := by
  obtain ⟨t, ht⟩ := h₁; obtain ⟨u, hu⟩ := h₂
  exact ⟨t ++ u, by rw [← List.append_assoc, ht, hu]⟩

theorem takePref (n : Nat) (l : List Char) : Pref (l.take n) l :=
  ⟨l.drop n, List.take_append_drop n l⟩

theorem prefLen {a b : List Char} (h : Pref a b) : a.length ≤ b.length := by
  obtain ⟨t, ht⟩ := h
  calc a.length ≤ a.length + t.length := Nat.le_add_right _ _
    _ = b.length := by rw [← List.length_append, ht]

theorem prefMem {a b : List Char} {c : Char} (h : Pref a b) (hc : c ∈ a) : c ∈ b := by
  obtain ⟨t, ht⟩ := h
  exact ht ▸ List.mem_append_left t hc

theorem prefHead {a b : List Char} (h : Pref a b) (ha : a ≠ []) :
    a.head? = b.head? := by
  obtain ⟨t, ht⟩ := h
  cases a with
  | nil => exact absurd rfl ha
  | cons x xs => rw [← ht]; rfl

theorem prefConsCons {a b : List Char} (c : Char) (h : Pref a b) :
    Pref (c :: a) (c :: b) := by
  obtain ⟨t, ht⟩ := h; exact ⟨t, by simp [ht]⟩

theorem prefAppendSplit {w t p : List Char} (h : Pref p (w ++ t)) :
    Pref p w ∨ ∃ q, p = w ++ q ∧ Pref q t := by
  induction w generalizing p with
  | nil => exact Or.inr ⟨p, rfl, h⟩
  | cons a w ih =>
    cases p with
    | nil => exact Or.inl ⟨a :: w, rfl⟩
    | cons x p' =>
      obtain ⟨u, hu⟩ := h
      have hx : x = a := by injection hu with h1 _
      have hp' : Pref p' (w ++ t) := ⟨u, by injection hu⟩
      rcases ih hp' with hl | ⟨q, hq, hqt⟩
      · exact Or.inl (hx ▸ prefConsCons x hl)
      · exact Or.inr ⟨q, by rw [hq, hx, List.cons_append], hqt⟩

/-- The last character of a list, via its reverse. -/
def lastCh (l : List Char) : Option Char := l.reverse.head?

theorem lastChAppend (a : List Char) {t : List Char} (ht : t ≠ []) :
    lastCh (a ++ t) = lastCh t := by
  unfold lastCh
  rw [List.reverse_append]
  cases hr : t.reverse with
  | nil => exact absurd (List.reverse_eq_nil_iff.mp hr) ht
  | cons x xs => rfl

theorem headDropWhileFalse {p : Char → Bool} {l : List Char} {c : Char}
    (h : (l.dropWhile p).head? = some c) : p c = false := by
  induction l with
  | nil => simp at h
  | cons x xs ih =>
    by_cases hx : p x
    · rw [List.dropWhile_cons_of_pos hx] at h; exact ih h
    · rw [List.dropWhile_cons_of_neg hx] at h
      simp at h
      exact h ▸ Bool.eq_false_iff.mpr hx

theorem dropWhileNoOp {p : Char → Bool} {l : List Char}
    (h : ∀ c, l.head? = some c → p c = false) : l.dropWhile p = l := by
  cases l with
  | nil => rfl
  | cons x xs =>
    have := h x rfl
    rw [List.dropWhile_cons_of_neg (by simp [this])]

theorem rstripPref (p : Char → Bool) (l : List Char) : Pref (pyRstripOn p l) l := by
  refine ⟨(l.reverse.takeWhile p).reverse, ?_⟩
  unfold pyRstripOn
  rw [← List.reverse_append, List.takeWhile_append_dropWhile, List.reverse_reverse]

theorem lastRstrip {p : Char → Bool} {l : List Char} {c : Char}
    (h : lastCh (pyRstripOn p l) = some c) : p c = false := by
  unfold lastCh pyRstripOn at h
  rw [List.reverse_reverse] at h
  exact headDropWhileFalse h

theorem rstripNoOp {p : Char → Bool} {l : List Char}
    (h : ∀ c, lastCh l = some c → p c = false) : pyRstripOn p l = l := by
  unfold pyRstripOn
  rw [dropWhileNoOp h, List.reverse_reverse]

theorem stripMem {p : Char → Bool} {l : List Char} {c : Char}
    (h : c ∈ pyStripOn p l) : c ∈ l := by
  unfold pyStripOn at h
  have h1 : c ∈ l.dropWhile p := prefMem (rstripPref p _) h
  have h2 := List.takeWhile_append_dropWhile (p := p) (l := l)
  rw [← h2]
  exact List.mem_append_right _ h1

theorem cutToLastSpacePref (l : List Char) : Pref (cutToLastSpace l) l := by
  induction l with
  | nil => exact prefRefl []
  | cons c cs ih =>
    unfold cutToLastSpace
    by_cases h : ' ' ∈ cs
    · simp only [if_pos h]; exact prefConsCons c ih
    · simp only [if_neg h]; exact ⟨c :: cs, rfl⟩

/-- Every word produced by `split()` is non-empty and whitespace-free. -/
def GoodWords (ws : List (List Char)) : Prop :=
  ∀ w ∈ ws, w ≠ [] ∧ ∀ c ∈ w, pyIsSpace c = false

theorem wordsAuxNilEq (cur : List Char) :
    wordsAux cur [] = if cur = [] then [] else [cur.reverse] := rfl

theorem wordsAuxConsEq (cur : List Char) (c : Char) (cs : List Char) :
    wordsAux cur (c :: cs) =
      if pyIsSpace c then
        if cur = [] then wordsAux [] cs else cur.reverse :: wordsAux [] cs
      else wordsAux (c :: cur) cs := rfl

theorem wordsAuxGood (cs : List Char) :
    ∀ cur, (∀ c ∈ cur, pyIsSpace c = false) → GoodWords (wordsAux cur cs) := by
  induction cs with
  | nil =>
    intro cur hcur
    rw [wordsAuxNilEq]
    by_cases h : cur = []
    · simp [h, GoodWords]
    · rw [if_neg h]
      intro w hw
      rw [List.mem_singleton] at hw
      subst hw
      exact ⟨by simpa using h, fun c hc => hcur c (List.mem_reverse.mp hc)⟩
  | cons c cs ih =>
    intro cur hcur
    rw [wordsAuxConsEq]
    by_cases hsp : pyIsSpace c
    · rw [if_pos hsp]
      by_cases hemp : cur = []
      · rw [if_pos hemp]; exact ih [] (by simp)
      · rw [if_neg hemp]
        intro w hw
        rcases List.mem_cons.mp hw with hw | hw
        · subst hw
          exact ⟨by simpa using hemp, fun d hd => hcur d (List.mem_reverse.mp hd)⟩
        · exact ih [] (by simp) w hw
    · rw [if_neg hsp]
      refine ih (c :: cur) ?_
      intro d hd
      rcases List.mem_cons.mp hd with hd | hd
      · subst hd; exact Bool.eq_false_iff.mpr hsp
      · exact hcur d hd

theorem wordsAuxAppend (w : List Char) :
    ∀ cur cs, (∀ c ∈ w, pyIsSpace c = false) →
      wordsAux cur (w ++ cs) = wordsAux (w.reverse ++ cur) cs := by
  induction w with
  | nil => intro cur cs _; rfl
  | cons a w ih =>
    intro cur cs hw
    have ha : pyIsSpace a = false := hw a (List.mem_cons_self a w)
    rw [List.cons_append, wordsAuxConsEq, if_neg (by simp [ha])]
    rw [ih (a :: cur) cs (fun c hc => hw c (List.mem_cons_of_mem a hc))]
    congr 1
    simp

theorem wordsAuxNeNil (cs : List Char) :
    ∀ cur, cur ≠ [] → wordsAux cur cs ≠ [] := by
  induction cs with
  | nil =>
    intro cur hcur
    rw [wordsAuxNilEq, if_neg hcur]
    simp
  | cons c cs ih =>
    intro cur hcur
    rw [wordsAuxConsEq]
    by_cases hsp : pyIsSpace c
    · rw [if_pos hsp, if_neg hcur]; simp
    · rw [if_neg hsp]; exact ih (c :: cur) (by simp)

theorem joinWordsNil : joinWords [] = [] := rfl

theorem joinWordsConsEq (w : List Char) (ws : List (List Char)) :
    joinWords (w :: ws) = w ++ if ws = [] then [] else ' ' :: joinWords ws := by
  rw [joinWords]

theorem joinWordsOne (w : List Char) : joinWords [w] = w := by
  rw [joinWordsConsEq, if_pos rfl, List.append_nil]

theorem joinWordsCons (w x : List Char) (ws : List (List Char)) :
    joinWords (w :: x :: ws) = w ++ ' ' :: joinWords (x :: ws) := by
  rw [joinWordsConsEq, if_neg (by simp)]

theorem collapseNoSpace {p : List Char} (hp : ∀ c ∈ p, pyIsSpace c = false) :
    collapseWs p = p := by
  cases p with
  | nil => rfl
  | cons x xs =>
    unfold collapseWs pySplitWs
    have h1 := wordsAuxAppend (x :: xs) [] [] hp
    rw [List.append_nil] at h1
    rw [h1, wordsAuxNilEq, if_neg (by simp), List.append_nil, List.reverse_reverse]
    exact joinWordsOne _

theorem splitJoin {ws : List (List Char)} (h : GoodWords ws) :
    pySplitWs (joinWords ws) = ws := by
  induction ws with
  | nil => rfl
  | cons w ws ih =>
    obtain ⟨hwne, hwsp⟩ := h w (List.mem_cons_self w ws)
    have hgood : GoodWords ws := fun v hv => h v (List.mem_cons_of_mem w hv)
    cases ws with
    | nil =>
      rw [joinWordsOne]
      unfold pySplitWs
      have h1 := wordsAuxAppend w [] [] hwsp
      rw [List.append_nil] at h1
      rw [h1, wordsAuxNilEq, if_neg (by simpa using hwne), List.append_nil,
        List.reverse_reverse]
    | cons x ws' =>
      rw [joinWordsCons]
      unfold pySplitWs
      rw [wordsAuxAppend w [] (' ' :: joinWords (x :: ws')) hwsp]
      rw [wordsAuxConsEq, if_pos (show pyIsSpace ' ' = true from rfl),
        if_neg (show ¬(w.reverse ++ [] = []) by simpa using hwne),
        List.append_nil, List.reverse_reverse]
      have h2 := ih hgood
      unfold pySplitWs at h2
      rw [h2]

theorem collapseIdem (cs : List Char) : collapseWs (collapseWs cs) = collapseWs cs := by
  unfold collapseWs
  rw [show pySplitWs (joinWords (pySplitWs cs)) = pySplitWs cs from
    splitJoin (wordsAuxGood cs [] (by simp))]

theorem headJoinGood {ws : List (List Char)} (h : GoodWords ws) {c : Char}
    (hc : (joinWords ws).head? = some c) : pyIsSpace c = false := by
  cases ws with
  | nil => simp [joinWordsNil] at hc
  | cons w ws =>
    obtain ⟨hwne, hwsp⟩ := h w (List.mem_cons_self w ws)
    cases w with
    | nil => exact absurd rfl hwne
    | cons a w' =>
      have : (joinWords ((a :: w') :: ws)).head? = some a := by
        cases ws with
        | nil => rw [joinWordsOne]; rfl
        | cons x ws' => rw [joinWordsCons]; rfl
      rw [this] at hc
      injection hc with hc
      exact hc ▸ hwsp a (List.mem_cons_self a w')

theorem collapsePrefFix {ws : List (List Char)} (h : GoodWords ws) :
    ∀ p, Pref p (joinWords ws) → lastCh p ≠ some ' ' → collapseWs p = p := by
  induction ws with
  | nil =>
    intro p hp _
    obtain ⟨t, ht⟩ := hp
    rw [joinWordsNil] at ht
    have : p = [] := by
      cases p with
      | nil => rfl
      | cons x xs => simp at ht
    subst this; rfl
  | cons w ws ih =>
    intro p hp hlast
    obtain ⟨hwne, hwsp⟩ := h w (List.mem_cons_self w ws)
    have hgood : GoodWords ws := fun v hv => h v (List.mem_cons_of_mem w hv)
    cases ws with
    | nil =>
      rw [joinWordsOne] at hp
      refine collapseNoSpace (fun c hc => hwsp c (prefMem hp hc))
    | cons x ws' =>
      rw [joinWordsCons] at hp
      rcases prefAppendSplit hp with hl | ⟨q, hq, hqt⟩
      · exact collapseNoSpace (fun c hc => hwsp c (prefMem hl hc))
      · cases q with
        | nil =>
          rw [List.append_nil] at hq
          subst hq
          exact collapseNoSpace hwsp
        | cons y q' =>
          obtain ⟨u, hu⟩ := hqt
          have hy : y = ' ' := by injection hu with h1 _
          subst hy
          have hq' : Pref q' (joinWords (x :: ws')) := ⟨u, by injection hu⟩
          have hq'ne : q' ≠ [] := by
            intro hnil
            subst hnil
            rw [hq] at hlast
            exact hlast (lastChAppend w (t := [' ']) (by simp))
          have hlastq' : lastCh q' ≠ some ' ' := by
            rw [hq] at hlast
            rw [lastChAppend w (t := ' ' :: q') (by simp)] at hlast
            have : lastCh (' ' :: q') = lastCh q' := lastChAppend [' '] hq'ne
            rw [this] at hlast
            exact hlast
          have hcq' : collapseWs q' = q' := ih hgood q' hq' hlastq'
          -- head of q' is the head of joinWords (x :: ws'), hence not whitespace
          have hheadq' : ∀ c, q'.head? = some c → pyIsSpace c = false := by
            intro c hc
            rw [prefHead hq' hq'ne] at hc
            exact headJoinGood hgood hc
          subst hq
          unfold collapseWs pySplitWs
          rw [wordsAuxAppend w [] (' ' :: q') hwsp]
          rw [wordsAuxConsEq, if_pos (show pyIsSpace ' ' = true from rfl),
            if_neg (show ¬(w.reverse ++ [] = []) by simpa using hwne),
            List.append_nil, List.reverse_reverse]
          have hsplitne : wordsAux [] q' ≠ [] := by
            cases hq'' : q' with
            | nil => exact absurd hq'' hq'ne
            | cons a as =>
              have ha : pyIsSpace a = false := hheadq' a (by rw [hq'']; rfl)
              rw [wordsAuxConsEq, if_neg (by simp [ha])]
              exact wordsAuxNeNil as [a] (by simp)
          cases hws' : wordsAux [] q' with
          | nil => exact absurd hws' hsplitne
          | cons v vs =>
            rw [joinWordsCons]
            have hj : joinWords (v :: vs) = q' := by
              have h3 := hcq'
              unfold collapseWs pySplitWs at h3
              rw [hws'] at h3
              exact h3
            rw [hj]

theorem lastChMem {l : List Char} {c : Char} (h : lastCh l = some c) : c ∈ l := by
  unfold lastCh at h
  have : c ∈ l.reverse := by
    cases hr : l.reverse with
    | nil => rw [hr] at h; simp at h
    | cons x xs =>
      rw [hr] at h
      injection h with h
      exact h ▸ List.mem_cons_self x xs
  exact List.mem_reverse.mp this

theorem trimCutPref (t : List Char) (L : Nat) : Pref (trimCut t L) (t.take L) := by
  unfold trimCut
  by_cases h : ' ' ∈ t.take L
  · rw [if_pos h]
    exact prefTrans (rstripPref _ _) (cutToLastSpacePref _)
  · rw [if_neg h]
    exact rstripPref _ _

theorem trimCutLen (t : List Char) (L : Nat) : (trimCut t L).length ≤ L :=
  le_trans (prefLen (trimCutPref t L))
    (le_trans (Nat.le_of_eq (List.length_take L t)) (Nat.min_le_left L t.length))

theorem trimCutLast (t : List Char) (L : Nat) : lastCh (trimCut t L) ≠ some ' ' := by
  intro h
  have hfalse : (fun c => decide (c ∈ trimPunct)) ' ' = false := by
    unfold trimCut at h
    by_cases hc : ' ' ∈ t.take L
    · rw [if_pos hc] at h; exact lastRstrip h
    · rw [if_neg hc] at h; exact lastRstrip h
  simp [trimPunct] at hfalse

theorem collapseTrimCut (cs : List Char) (L : Nat) :
    collapseWs (trimCut (collapseWs cs) L) = trimCut (collapseWs cs) L := by
  refine collapsePrefFix (wordsAuxGood cs [] (by simp)) _ ?_ (trimCutLast _ _)
  exact prefTrans (trimCutPref _ _) (takePref L _)

theorem stripNoOp {l : List Char}
    (hh : ∀ c, l.head? = some c → pyIsSpace c = false)
    (hl : ∀ c, lastCh l = some c → pyIsSpace c = false) :
    pyStrip l = l := by
  unfold pyStrip pyStripOn
  rw [dropWhileNoOp hh]
  exact rstripNoOp hl

theorem headStrip {l : List Char} {c : Char}
    (h : (pyStrip l).head? = some c) : pyIsSpace c = false := by
  unfold pyStrip pyStripOn pyRstripOn at h
  set m := l.dropWhile pyIsSpace with hm
  set d := m.reverse.dropWhile pyIsSpace with hd
  have hdr : d.reverse.head? = some c := h
  have hdne : d ≠ [] := by
    intro hnil
    rw [hnil] at hdr
    simp at hdr
  have h1 : lastCh d = some c := hdr
  have h2 : lastCh (m.reverse.takeWhile pyIsSpace ++ d) = some c := by
    rw [lastChAppend _ hdne]; exact h1
  rw [List.takeWhile_append_dropWhile] at h2
  have h3 : m.head? = some c := by
    unfold lastCh at h2
    rw [List.reverse_reverse] at h2
    exact h2
  exact headDropWhileFalse h3

theorem lastStrip {l : List Char} {c : Char}
    (h : lastCh (pyStrip l) = some c) : pyIsSpace c = false :=
  lastRstrip h

theorem stripIdem (l : List Char) : pyStrip (pyStrip l) = pyStrip l :=
  stripNoOp (fun _ hc => headStrip hc) (fun _ hc => lastStrip hc)

theorem stripDataMk (l : List Char) : (String.mk l).data = l := rfl

theorem lengthMk (l : List Char) : (String.mk l).length = l.length := rfl

/-- All whitespace characters of `s` are plain spaces. -/
def spacesOnly (s : String) : Prop := ∀ c ∈ s.data, pyIsSpace c = true → c = ' '

instance (s : String) : Decidable (spacesOnly s) := by
  unfold spacesOnly; infer_instance

theorem softTrimRootLen (s : String) (L : Nat) :
    (Tweetify.soft_trim s L).length ≤ L := by
  unfold Tweetify.soft_trim
  by_cases h : (collapseWs s.data).length ≤ L
  · rw [if_pos h]; exact h
  · rw [if_neg h]; exact trimCutLen _ _

theorem softTrimEnrichLen (s : String) (L : Nat) :
    (Enrich.soft_trim s L).length ≤ L := by
  unfold Enrich.soft_trim
  by_cases h : (pyStrip s.data).length ≤ L
  · rw [if_pos h]; exact h
  · rw [if_neg h]; exact trimCutLen _ _

theorem pyOrEmptyEq (s : String) : pyOrEmpty s = s := by
  unfold pyOrEmpty
  by_cases h : s = ""
  · rw [if_pos (by simp [h]), h]
  · rw [if_neg (by simpa using h)]

theorem twitterEqRoot (s : String) (L : Nat) :
    Twitter.soft_trim s L = Tweetify.soft_trim s L := by
  unfold Twitter.soft_trim Tweetify.soft_trim
  rw [pyOrEmptyEq]

theorem softTrimRootIdem (s : String) (L : Nat) :
    Tweetify.soft_trim (Tweetify.soft_trim s L) L = Tweetify.soft_trim s L := by
  by_cases h : (collapseWs s.data).length ≤ L
  · have h1 : Tweetify.soft_trim s L = String.mk (collapseWs s.data) := by
      unfold Tweetify.soft_trim; rw [if_pos h]
    rw [h1]
    unfold Tweetify.soft_trim
    rw [stripDataMk, collapseIdem, if_pos h]
  · have h1 : Tweetify.soft_trim s L = String.mk (trimCut (collapseWs s.data) L) := by
      unfold Tweetify.soft_trim; rw [if_neg h]
    rw [h1]
    unfold Tweetify.soft_trim
    rw [stripDataMk, collapseTrimCut,
      if_pos (trimCutLen (collapseWs s.data) L)]

theorem softTrimEnrichIdem (s : String) (L : Nat) (hsp : spacesOnly s) :
    Enrich.soft_trim (Enrich.soft_trim s L) L = Enrich.soft_trim s L := by
  by_cases h : (pyStrip s.data).length ≤ L
  · have h1 : Enrich.soft_trim s L = String.mk (pyStrip s.data) := by
      unfold Enrich.soft_trim; rw [if_pos h]
    rw [h1]
    unfold Enrich.soft_trim
    rw [stripDataMk, stripIdem, if_pos h]
  · have h1 : Enrich.soft_trim s L = String.mk (trimCut (pyStrip s.data) L) := by
      unfold Enrich.soft_trim; rw [if_neg h]
    set t := pyStrip s.data with ht
    set r := trimCut t L with hr
    have hpr : Pref r t := prefTrans (trimCutPref t L) (takePref L t)
    have hhead : ∀ c, r.head? = some c → pyIsSpace c = false := by
      intro c hc
      have hrne : r ≠ [] := by
        intro hnil; rw [hnil] at hc; simp at hc
      rw [prefHead hpr hrne] at hc
      exact headStrip hc
    have hlast : ∀ c, lastCh r = some c → pyIsSpace c = false := by
      intro c hc
      have hpunct : decide (c ∈ trimPunct) = false := by
        rw [hr] at hc
        unfold trimCut at hc
        by_cases hm : ' ' ∈ t.take L
        · rw [if_pos hm] at hc; exact lastRstrip hc
        · rw [if_neg hm] at hc; exact lastRstrip hc
      have hcs : c ∈ s.data := stripMem (prefMem hpr (lastChMem hc))
      by_contra hws
      have hws' : pyIsSpace c = true := by
        cases hb : pyIsSpace c with
        | false => exact absurd hb hws
        | true => rfl
      have : c = ' ' := hsp c hcs hws'
      subst this
      simp [trimPunct] at hpunct
    have hstrip : pyStrip r = r := stripNoOp hhead hlast
    rw [h1]
    unfold Enrich.soft_trim
    rw [stripDataMk, hstrip, if_pos (trimCutLen t L)]

end TrimLemmas

/-- Truthiness of an `os.getenv` result: `None` (unset) and the empty
string are falsy, every other string is truthy
(src/Twitter/post_tweet.py:97). -/
def env_truthy (v : Option String) : Bool :=
  match v with
  | none => false
  | some s => !(s == "")

/-- Idempotency guard of src/Twitter/post_tweet.py:97-99: skip the X post
when `FORCE_POST` is falsy and both the candidate url (from tweet.json) and
the marker url (from last_linkedin_post.json) are non-empty and equal.
A missing or unparsable marker file yields the empty marker url
(`(last_src or {}).get("url", "")`, lines 90-95). -/
def skipPublish (forcePost : Option String) (tweetUrl lastUrl : String) : Bool :=
  !(env_truthy forcePost) && !(tweetUrl == "") && !(lastUrl == "") && (tweetUrl == lastUrl)

/-- Claim C1: the guard's skip-publish decision is true iff the override
flag is falsy (unset or empty), both the candidate and marker URLs are
non-empty, and they are equal; any empty URL or truthy override yields
skip = false. -/
theorem C1_idempotency_guard (f : Option String) (c m : String) :
    skipPublish f c m = true ↔
      env_truthy f = false ∧ c ≠ "" ∧ m ≠ "" ∧ c = m := by
  simp only [skipPublish, Bool.and_eq_true, Bool.not_eq_true', beq_iff_eq,
    bne_iff_ne, ne_eq]
  constructor
  · rintro ⟨⟨⟨hf, hc⟩, hm⟩, he⟩
    exact ⟨hf, by simpa using hc, by simpa using hm, he⟩
  · rintro ⟨hf, hc, hm, he⟩
    exact ⟨⟨⟨hf, by simpa using hc⟩, by simpa using hm⟩, he⟩

/-- Claim C9: `FORCE_POST` is considered set exactly when its value is a
non-empty string. Any non-empty value (including "false" and "0") makes the
guard return skip = false regardless of the URLs, while an unset variable or
an empty-string value leaves the guard behaving identically (skip iff the
URLs are non-empty and equal). -/
theorem C9_force_post_truthiness (v : String) (c m : String) :
    (v ≠ "" → skipPublish (some v) c m = false) ∧
      skipPublish none c m = (!(c == "") && !(m == "") && (c == m)) ∧
      skipPublish (some "") c m = skipPublish none c m := by
  refine ⟨fun hv => ?_, ?_, ?_⟩
  · simp [skipPublish, env_truthy, hv]
  · simp [skipPublish, env_truthy]
  · simp [skipPublish, env_truthy]

/-- Witness for C9 at a concrete input: `FORCE_POST="false"` bypasses the
guard even with equal non-empty URLs. -/
theorem C9_force_post_truthiness_witness :
    skipPublish (some "false") "https://a/1" "https://a/1" = false :=
  (C9_force_post_truthiness "false" "https://a/1" "https://a/1").1 (by decide)

/-- Claim C2 (amended): every `soft_trim` variant returns a string of length
at most the limit; the tweetify and Twitter variants (which collapse all
whitespace first) are idempotent at a fixed limit; the enrich variant (which
only strips the ends) is idempotent for strings whose whitespace characters
are all plain spaces. -/
theorem C2_bounded_trimmer (s : String) (L : Nat) (hL : 0 < L) :
    (Tweetify.soft_trim s L).length ≤ L ∧
    (Enrich.soft_trim s L).length ≤ L ∧
    (Twitter.soft_trim s L).length ≤ L ∧
    Tweetify.soft_trim (Tweetify.soft_trim s L) L = Tweetify.soft_trim s L ∧
    Twitter.soft_trim (Twitter.soft_trim s L) L = Twitter.soft_trim s L ∧
    (spacesOnly s → Enrich.soft_trim (Enrich.soft_trim s L) L = Enrich.soft_trim s L) := by
  refine ⟨softTrimRootLen s L, softTrimEnrichLen s L, ?_, softTrimRootIdem s L, ?_,
    fun hsp => softTrimEnrichIdem s L hsp⟩
  · rw [twitterEqRoot]; exact softTrimRootLen s L
  · rw [twitterEqRoot, twitterEqRoot]; exact softTrimRootIdem s L

/-- Counterexample to claim C2 as stated: the enrich `soft_trim`
(src/enrich_post.py:35-42) is not idempotent, because it does not collapse
internal whitespace and `rstrip(" ,.;:!?")` does not strip a trailing tab:
trimming `"ab\tcd"` at limit 3 gives `"ab\t"`, and trimming that again gives
`"ab"`. -/
theorem C2_counterexample :
    Enrich.soft_trim "ab\tcd" 3 = "ab\t" ∧
    Enrich.soft_trim (Enrich.soft_trim "ab\tcd" 3) 3 = "ab" ∧
    Enrich.soft_trim (Enrich.soft_trim "ab\tcd" 3) 3 ≠ Enrich.soft_trim "ab\tcd" 3 := by
  refine ⟨by decide, by decide, by decide⟩

/-- Witness for C2 at a concrete input. -/
theorem C2_bounded_trimmer_witness :
    (Tweetify.soft_trim "hello world how" 7).length ≤ 7 ∧
    (Enrich.soft_trim "hello world how" 7).length ≤ 7 ∧
    (Twitter.soft_trim "hello world how" 7).length ≤ 7 ∧
    Tweetify.soft_trim (Tweetify.soft_trim "hello world how" 7) 7 =
      Tweetify.soft_trim "hello world how" 7 ∧
    Twitter.soft_trim (Twitter.soft_trim "hello world how" 7) 7 =
      Twitter.soft_trim "hello world how" 7 ∧
    Enrich.soft_trim (Enrich.soft_trim "hello world how" 7) 7 =
      Enrich.soft_trim "hello world how" 7 := by
  have h := C2_bounded_trimmer "hello world how" 7 (by decide)
  exact ⟨h.1, h.2.1, h.2.2.1, h.2.2.2.1, h.2.2.2.2.1, h.2.2.2.2.2 (by decide)⟩

/-- Claim C8 (amended): when the collapsed string is longer than the limit
and its first `L` characters contain no space, `soft_trim` returns the raw
`L`-character cut with trailing `" ,.;:!?"` characters stripped; it equals
the raw cut exactly when the cut does not end in one of those characters. -/
theorem C8_no_space_cut (s : String) (L : Nat)
    (h1 : L < (collapseWs s.data).length)
    (h2 : ' ' ∉ (collapseWs s.data).take L) :
    Tweetify.soft_trim s L =
      String.mk (pyRstripOn (fun c => c ∈ trimPunct) ((collapseWs s.data).take L)) ∧
    ((∀ c ∈ trimPunct, lastCh ((collapseWs s.data).take L) ≠ some c) →
      Tweetify.soft_trim s L = String.mk ((collapseWs s.data).take L)) := by
  have hmain : Tweetify.soft_trim s L =
      String.mk (pyRstripOn (fun c => c ∈ trimPunct) ((collapseWs s.data).take L)) := by
    unfold Tweetify.soft_trim
    rw [if_neg (by omega), trimCut, if_neg h2]
  refine ⟨hmain, fun h3 => ?_⟩
  rw [hmain]
  congr 1
  refine rstripNoOp ?_
  intro c hc
  by_contra hmem
  have hmem' : c ∈ trimPunct := by
    cases hb : decide (c ∈ trimPunct) with
    | false => exact absurd hb hmem
    | true => exact of_decide_eq_true hb
  exact h3 c hmem' hc

/-- Counterexample to claim C8 as stated: with no space in the prefix the
code still strips trailing punctuation, so the result is not always the raw
`L`-character cut: for `"aaaa,bbbb"` at limit 5 the raw cut is `"aaaa,"` but
`soft_trim` returns `"aaaa"`. -/
theorem C8_counterexample :
    5 < (collapseWs ("aaaa,bbbb" : String).data).length ∧
    ' ' ∉ (collapseWs ("aaaa,bbbb" : String).data).take 5 ∧
    String.mk ((collapseWs ("aaaa,bbbb" : String).data).take 5) = "aaaa," ∧
    Tweetify.soft_trim "aaaa,bbbb" 5 = "aaaa" ∧
    Tweetify.soft_trim "aaaa,bbbb" 5 ≠
      String.mk ((collapseWs ("aaaa,bbbb" : String).data).take 5) := by
  refine ⟨by decide, by decide, by decide, by decide, by decide⟩

/-- Witness for C8 at a concrete input. -/
theorem C8_no_space_cut_witness :
    Tweetify.soft_trim "abcdef" 3 =
      String.mk (pyRstripOn (fun c => c ∈ trimPunct) ((collapseWs ("abcdef" : String).data).take 3)) ∧
    Tweetify.soft_trim "abcdef" 3 = String.mk ((collapseWs ("abcdef" : String).data).take 3) := by
  have h := C8_no_space_cut "abcdef" 3 (by decide) (by decide)
  exact ⟨h.1, h.2 (by decide)⟩

/-- State machine for `re.sub(r"<[^>]+>", " ", s)`
(src/tweetify_post.py:29, src/enrich_post.py:24, src/Twitter/tweetify_post.py:25).
`none`: scanning outside a candidate tag; `some buf`: a `<` was seen and
`buf` holds the (reversed) body read so far without a closing `>`. A
closed candidate with a non-empty body is replaced by one space; `<>` and an
unterminated `<` are emitted literally, exactly as the regex leaves them. -/
def stripTagsAux : Option (List Char) → List Char → List Char
  | none, [] => []
  | none, c :: cs => if c = '<' then stripTagsAux (some []) cs else c :: stripTagsAux none cs
  | some buf, [] => '<' :: buf.reverse
  | some buf, c :: cs =>
    if c = '>' then
      if buf = [] then '<' :: '>' :: stripTagsAux none cs
      else ' ' :: stripTagsAux none cs
    else stripTagsAux (some (c :: buf)) cs

/-- `re.sub(r"<[^>]+>", " ", s)` over char lists. -/
def stripTagsL (cs : List Char) : List Char := stripTagsAux none cs

/-- State machine for `re.sub(r"\s+", " ", s)`: replace every maximal run of
whitespace by a single space; `prevSpace` records whether the previous input
character belonged to a run already replaced. -/
def subWs (prevSpace : Bool) : List Char → List Char
  | [] => []
  | c :: cs =>
    if pyIsSpace c then
      if prevSpace then subWs true cs else ' ' :: subWs true cs
    else c :: subWs false cs

/-- `strip_html_to_text` of src/tweetify_post.py:28-31 and
src/enrich_post.py:23-26 (the two definitions are textually identical):
remove `<...>` tags, decode HTML entities, collapse whitespace runs, strip
the ends. The entity decoder `html.unescape` is a Python standard-library
function and is passed in as a parameter. -/
def strip_html_to_text (unescape : String → String) (s : String) : String :=
  String.mk (pyStrip (subWs false (unescape (String.mk (stripTagsL (pyOrEmpty s).data))).data))

/-- Model of the Python standard-library `html.unescape`, restricted to the
semicolon forms of the entities `lt`, `gt` and `amp`; on strings whose
ampersands only start these exact entity references this agrees with
`html.unescape` (a single left-to-right pass with no re-scanning of the
replacement text). -/
def py_html_unescape_chars : List Char → List Char
  | '&' :: 'l' :: 't' :: ';' :: rest => '<' :: py_html_unescape_chars rest
  | '&' :: 'g' :: 't' :: ';' :: rest => '>' :: py_html_unescape_chars rest
  | '&' :: 'a' :: 'm' :: 'p' :: ';' :: rest => '&' :: py_html_unescape_chars rest
  | c :: rest => c :: py_html_unescape_chars rest
  | [] => []

/-- `html.unescape` model at the `String` level. -/
def py_html_unescape (s : String) : String := String.mk (py_html_unescape_chars s.data)

/-- `noWsRun l` holds when `l` has no two adjacent whitespace characters. -/
def noWsRun : List Char → Bool
  | [] => true
  | [_] => true
  | a :: b :: t => !(pyIsSpace a && pyIsSpace b) && noWsRun (b :: t)

theorem noWsRunConsEq (a b : Char) (t : List Char) :
    noWsRun (a :: b :: t) = (!(pyIsSpace a && pyIsSpace b) && noWsRun (b :: t)) := rfl

theorem noWsRunTail {c : Char} {t : List Char} (h : noWsRun (c :: t) = true) :
    noWsRun t = true := by
  cases t with
  | nil => rfl
  | cons b t' =>
    rw [noWsRunConsEq] at h
    simp only [Bool.and_eq_true] at h
    exact h.2

theorem noWsRunApp {p t : List Char} (h : noWsRun (p ++ t) = true) :
    noWsRun p = true := by
  induction p with
  | nil => rfl
  | cons a p' ih =>
    cases p' with
    | nil => rfl
    | cons b p'' =>
      have h' : noWsRun (a :: b :: (p'' ++ t)) = true := h
      rw [noWsRunConsEq] at h'
      simp only [Bool.and_eq_true] at h'
      rw [noWsRunConsEq]
      simp only [Bool.and_eq_true]
      exact ⟨h'.1, ih h'.2⟩

theorem noWsRunDropWhile (p : Char → Bool) {l : List Char} (h : noWsRun l = true) :
    noWsRun (l.dropWhile p) = true := by
  induction l with
  | nil => rfl
  | cons c t ih =>
    by_cases hc : p c
    · rw [List.dropWhile_cons_of_pos hc]; exact ih (noWsRunTail h)
    · rw [List.dropWhile_cons_of_neg hc]; exact h

theorem noWsRunRstrip (p : Char → Bool) {l : List Char} (h : noWsRun l = true) :
    noWsRun (pyRstripOn p l) = true := by
  obtain ⟨t, ht⟩ := rstripPref p l
  rw [← ht] at h
  exact noWsRunApp h

theorem noWsRunStrip {l : List Char} (h : noWsRun l = true) :
    noWsRun (pyStrip l) = true :=
  noWsRunRstrip _ (noWsRunDropWhile _ h)

theorem subWsHeadTrue (l : List Char) :
    ∀ c, (subWs true l).head? = some c → pyIsSpace c = false := by
  induction l with
  | nil => intro c hc; simp [subWs] at hc
  | cons x xs ih =>
    intro c hc
    by_cases hx : pyIsSpace x
    · rw [show subWs true (x :: xs) = subWs true xs by simp [subWs, hx]] at hc
      exact ih c hc
    · rw [show subWs true (x :: xs) = x :: subWs false xs by simp [subWs, hx]] at hc
      injection hc with hc
      exact hc ▸ Bool.eq_false_iff.mpr hx

theorem noWsRunConsHead {c : Char} {l : List Char}
    (hc : pyIsSpace c = false ∨ ∀ d, l.head? = some d → pyIsSpace d = false)
    (hl : noWsRun l = true) : noWsRun (c :: l) = true := by
  cases l with
  | nil => rfl
  | cons d t =>
    rw [noWsRunConsEq]
    simp only [Bool.and_eq_true]
    refine ⟨?_, hl⟩
    rcases hc with hc | hc
    · simp [hc]
    · simp [hc d rfl]

theorem subWsNoRun (l : List Char) : ∀ b, noWsRun (subWs b l) = true := by
  induction l with
  | nil => intro b; rfl
  | cons x xs ih =>
    intro b
    by_cases hx : pyIsSpace x
    · cases b with
      | true =>
        rw [show subWs true (x :: xs) = subWs true xs by simp [subWs, hx]]
        exact ih true
      | false =>
        rw [show subWs false (x :: xs) = ' ' :: subWs true xs by simp [subWs, hx]]
        exact noWsRunConsHead (Or.inr (subWsHeadTrue xs)) (ih true)
    · rw [show subWs b (x :: xs) = x :: subWs false xs by simp [subWs, hx]]
      exact noWsRunConsHead (Or.inl (Bool.eq_false_iff.mpr hx)) (ih false)

theorem memSubWs {c : Char} (l : List Char) :
    ∀ b, c ∈ subWs b l → c = ' ' ∨ c ∈ l := by
  induction l with
  | nil => intro b h; simp [subWs] at h
  | cons x xs ih =>
    intro b h
    by_cases hx : pyIsSpace x
    · cases b with
      | true =>
        rw [show subWs true (x :: xs) = subWs true xs by simp [subWs, hx]] at h
        rcases ih true h with h | h
        · exact Or.inl h
        · exact Or.inr (List.mem_cons_of_mem x h)
      | false =>
        rw [show subWs false (x :: xs) = ' ' :: subWs true xs by simp [subWs, hx]] at h
        rcases List.mem_cons.mp h with h | h
        · exact Or.inl h
        · rcases ih true h with h | h
          · exact Or.inl h
          · exact Or.inr (List.mem_cons_of_mem x h)
    · rw [show subWs b (x :: xs) = x :: subWs false xs by simp [subWs, hx]] at h
      rcases List.mem_cons.mp h with h | h
      · exact Or.inr (h ▸ List.mem_cons_self x xs)
      · rcases ih false h with h | h
        · exact Or.inl h
        · exact Or.inr (List.mem_cons_of_mem x h)

/-- Claim C3 (amended): for every entity decoder and every input,
`strip_html_to_text` yields no run of two or more consecutive whitespace
characters; it contains no `<` (resp. `>`) provided the entity-decoded
tag-stripped text contains none. (Decoding happens after tag removal, so
entities such as `&lt;` reintroduce literal angle brackets — see the
counterexample.) -/
theorem C3_normalizer (unescape : String → String) (s : String) :
    noWsRun (strip_html_to_text unescape s).data = true ∧
    ('<' ∉ (unescape (String.mk (stripTagsL (pyOrEmpty s).data))).data →
      '<' ∉ (strip_html_to_text unescape s).data) ∧
    ('>' ∉ (unescape (String.mk (stripTagsL (pyOrEmpty s).data))).data →
      '>' ∉ (strip_html_to_text unescape s).data) := by
  refine ⟨?_, ?_, ?_⟩
  · exact noWsRunStrip (subWsNoRun _ false)
  · intro hno hmem
    have h1 := stripMem (p := pyIsSpace) hmem
    rcases memSubWs _ false h1 with h2 | h2
    · exact absurd h2 (by decide)
    · exact hno h2
  · intro hno hmem
    have h1 := stripMem (p := pyIsSpace) hmem
    rcases memSubWs _ false h1 with h2 | h2
    · exact absurd h2 (by decide)
    · exact hno h2

/-- Counterexample to claim C3 as stated: the input `"<b>x</b> &lt;y&gt;"`
contains tags and entities, yet the normalized output is `"x <y>"`, which
contains both `<` and `>`: entity decoding runs after tag removal, so the
decoded brackets survive. -/
theorem C3_counterexample :
    strip_html_to_text py_html_unescape "<b>x</b> &lt;y&gt;" = "x <y>" ∧
    '<' ∈ (strip_html_to_text py_html_unescape "<b>x</b> &lt;y&gt;").data ∧
    '>' ∈ (strip_html_to_text py_html_unescape "<b>x</b> &lt;y&gt;").data := by
  refine ⟨by decide, by decide, by decide⟩

/-- Witness for C3 at a concrete input without bracket-producing entities:
the output of the normalizer has no whitespace runs and no brackets. -/
theorem C3_normalizer_witness :
    noWsRun (strip_html_to_text py_html_unescape "<b>hi</b> &amp;  ok").data = true ∧
    '<' ∉ (strip_html_to_text py_html_unescape "<b>hi</b> &amp;  ok").data ∧
    '>' ∉ (strip_html_to_text py_html_unescape "<b>hi</b> &amp;  ok").data := by
  have h := C3_normalizer py_html_unescape "<b>hi</b> &amp;  ok"
  exact ⟨h.1, h.2.1 (by decide), h.2.2 (by decide)⟩

/-- JSON values as produced by Python `json.loads`; numbers keep their
source lexeme, which is all the embedded code ever inspects. -/
inductive JVal where
  | jnull : JVal
  | jbool : Bool → JVal
  | jnum : String → JVal
  | jstr : String → JVal
  | jarr : List JVal → JVal
  | jobj : List (String × JVal) → JVal

/-- Python `dict` insertion `d[k] = v` on an association list: replace the
first binding of `k` in place, or append a new binding at the end (Python
dicts preserve insertion order and overwrite in place). -/
def setKey (k : String) (v : JVal) : List (String × JVal) → List (String × JVal)
  | [] => [(k, v)]
  | (k', v') :: rest => if k' == k then (k, v) :: rest else (k', v') :: setKey k v rest

/-- JSON whitespace skipping. -/
def skipJWs (cs : List Char) : List Char :=
  cs.dropWhile (fun c => c == ' ' || c == '\t' || c == '\n' || c == '\r')

/-- Hexadecimal digit value. -/
def hexVal? (c : Char) : Option Nat :=
  if '0' ≤ c ∧ c ≤ '9' then some (c.toNat - '0'.toNat)
  else if 'a' ≤ c ∧ c ≤ 'f' then some (c.toNat - 'a'.toNat + 10)
  else if 'A' ≤ c ∧ c ≤ 'F' then some (c.toNat - 'A'.toNat + 10)
  else none

/-- Decode one JSON string escape after a backslash (surrogate-pair joining
of `\uXXXX` escapes is not modelled; no input considered here uses it). -/
def jsonEscape? (e : Char) (r : List Char) : Option (Char × List Char) :=
  if e == '"' then some ('"', r)
  else if e == '\\' then some ('\\', r)
  else if e == '/' then some ('/', r)
  else if e == 'b' then some ('\x08', r)
  else if e == 'f' then some ('\x0c', r)
  else if e == 'n' then some ('\n', r)
  else if e == 'r' then some ('\r', r)
  else if e == 't' then some ('\t', r)
  else if e == 'u' then
    match r with
    | h1 :: h2 :: h3 :: h4 :: r' =>
      match hexVal? h1, hexVal? h2, hexVal? h3, hexVal? h4 with
      | some a, some b, some c, some d =>
        some (Char.ofNat (((a * 16 + b) * 16 + c) * 16 + d), r')
      | _, _, _, _ => none
    | _ => none
  else none

/-- Parse a JSON string body (after the opening quote), returning the
decoded content and the remainder after the closing quote. The fuel is
always instantiated with more than the input length, so it never runs out. -/
def parseStrBody : Nat → List Char → Option (List Char × List Char)
  | 0, _ => none
  | _ + 1, [] => none
  | fuel + 1, c :: rest =>
    if c == '"' then some ([], rest)
    else if c == '\\' then
      match rest with
      | [] => none
      | e :: rest2 =>
        match jsonEscape? e rest2 with
        | none => none
        | some (ch, r) =>
          match parseStrBody fuel r with
          | none => none
          | some (content, rest') => some (ch :: content, rest')
    else if c.toNat < 32 then none
    else
      match parseStrBody fuel rest with
      | none => none
      | some (content, rest') => some (c :: content, rest')

/-- Optional fraction part of a JSON number. -/
def parseFracPart (cs : List Char) : Option (List Char × List Char) :=
  match cs with
  | '.' :: r =>
    let ds := r.takeWhile Char.isDigit
    if ds = [] then none else some ('.' :: ds, r.dropWhile Char.isDigit)
  | _ => some ([], cs)

/-- Optional exponent part of a JSON number. -/
def parseExpPart (cs : List Char) : Option (List Char × List Char) :=
  match cs with
  | e :: rest =>
    if e == 'e' || e == 'E' then
      match rest with
      | '+' :: r =>
        let ds := r.takeWhile Char.isDigit
        if ds = [] then none else some (e :: '+' :: ds, r.dropWhile Char.isDigit)
      | '-' :: r =>
        let ds := r.takeWhile Char.isDigit
        if ds = [] then none else some (e :: '-' :: ds, r.dropWhile Char.isDigit)
      | _ =>
        let ds := rest.takeWhile Char.isDigit
        if ds = [] then none else some (e :: ds, rest.dropWhile Char.isDigit)
    else some ([], cs)
  | [] => some ([], [])

/-- Lex a JSON number (strict grammar: optional minus, no leading zeros,
optional fraction and exponent), returning its lexeme. -/
def parseNumber (cs : List Char) : Option (List Char × List Char) :=
  let sign : List Char := match cs with
    | '-' :: _ => ['-']
    | _ => []
  let cs1 : List Char := match cs with
    | '-' :: r => r
    | _ => cs
  let intDs := cs1.takeWhile Char.isDigit
  let cs2 := cs1.dropWhile Char.isDigit
  if intDs = [] then none
  else if intDs.head? = some '0' ∧ intDs.length ≠ 1 then none
  else
    match parseFracPart cs2 with
    | none => none
    | some (frac, cs3) =>
      match parseExpPart cs3 with
      | none => none
      | some (ex, cs4) => some (sign ++ intDs ++ frac ++ ex, cs4)

mutual

/-- Recursive-descent JSON value parser; the fuel argument only bounds the
recursion depth and is always instantiated large enough (see `json_loads`). -/
def parseVal : Nat → List Char → Option (JVal × List Char)
  | 0, _ => none
  | fuel + 1, cs =>
    match skipJWs cs with
    | '{' :: rest => parseObjBody fuel rest
    | '[' :: rest => parseArrBody fuel rest
    | '"' :: rest =>
      match parseStrBody (rest.length + 1) rest with
      | none => none
      | some (content, rest') => some (JVal.jstr (String.mk content), rest')
    | 't' :: 'r' :: 'u' :: 'e' :: rest => some (JVal.jbool true, rest)
    | 'f' :: 'a' :: 'l' :: 's' :: 'e' :: rest => some (JVal.jbool false, rest)
    | 'n' :: 'u' :: 'l' :: 'l' :: rest => some (JVal.jnull, rest)
    | other =>
      match parseNumber other with
      | none => none
      | some (lex, rest') => some (JVal.jnum (String.mk lex), rest')

/-- Parse an object body after the opening brace. -/
def parseObjBody : Nat → List Char → Option (JVal × List Char)
  | 0, _ => none
  | fuel + 1, cs =>
    match skipJWs cs with
    | '}' :: rest => some (JVal.jobj [], rest)
    | other => parseMembers fuel other []

/-- Parse the members of an object; duplicate keys overwrite in place as in
a Python dict. -/
def parseMembers : Nat → List Char → List (String × JVal) → Option (JVal × List Char)
  | 0, _, _ => none
  | fuel + 1, cs, acc =>
    match skipJWs cs with
    | '"' :: rest =>
      match parseStrBody (rest.length + 1) rest with
      | none => none
      | some (key, rest1) =>
        match skipJWs rest1 with
        | ':' :: rest2 =>
          match parseVal fuel rest2 with
          | none => none
          | some (v, rest3) =>
            match skipJWs rest3 with
            | ',' :: rest4 => parseMembers fuel rest4 (setKey (String.mk key) v acc)
            | '}' :: rest4 => some (JVal.jobj (setKey (String.mk key) v acc), rest4)
            | _ => none
        | _ => none
    | _ => none

/-- Parse an array body after the opening bracket. -/
def parseArrBody : Nat → List Char → Option (JVal × List Char)
  | 0, _ => none
  | fuel + 1, cs =>
    match skipJWs cs with
    | ']' :: rest => some (JVal.jarr [], rest)
    | other => parseElems fuel other []

/-- Parse the elements of an array. -/
def parseElems : Nat → List Char → List JVal → Option (JVal × List Char)
  | 0, _, _ => none
  | fuel + 1, cs, acc =>
    match parseVal fuel cs with
    | none => none
    | some (v, rest) =>
      match skipJWs rest with
      | ',' :: rest2 => parseElems fuel rest2 (acc ++ [v])
      | ']' :: rest2 => some (JVal.jarr (acc ++ [v]), rest2)
      | _ => none

end

/-- Model of Python `json.loads` on the strict JSON grammar (the
non-standard `NaN`/`Infinity` extensions Python additionally accepts are not
modelled; no claim exercises them). A document nests at most one value per
three input characters, so the fuel never runs out. -/
def json_loads (s : String) : Option JVal :=
  match parseVal (3 * s.data.length + 9) s.data with
  | some (v, rest) => if skipJWs rest = [] then some v else none
  | none => none

/-- Python `s.startswith(pre)` over characters. -/
def pyStartsWith (s pre : String) : Bool := s.data.take pre.data.length == pre.data

/-- Python `s.endswith(suf)` over characters. -/
def pyEndsWith (s suf : String) : Bool := s.data.reverse.take suf.data.length == suf.data.reverse

/-- `raw.lower()` restricted to the first four characters, as used by the
`startswith("json")` checks. -/
def lowerTake4 (s : String) : String := String.mk ((s.data.take 4).map Char.toLower)

/-- Code-fence stripping of src/enrich_post.py:127-132 and
src/tweetify_post.py:146-151 (textually identical): if the text starts with
three backticks, strip all leading/trailing backticks, drop a leading
`json` language tag, and drop a trailing fence remnant. -/
def stripFencesTriple (raw : String) : String :=
  if pyStartsWith raw "```" then
    let r1 := String.mk (pyStripOn (fun c => c == '`') raw.data)
    let r2 := if lowerTake4 r1 == "json" then String.mk (pyLstrip (r1.data.drop 4)) else r1
    if pyEndsWith r2 "```" then
      String.mk (pyRstripOn pyIsSpace (r2.data.take (r2.data.length - 3)))
    else r2
  else raw

/-- Code-fence stripping of src/Twitter/tweetify_post.py:101-105: like the
root variant but without the trailing-fence branch. -/
def stripFencesTwitter (raw : String) : String :=
  if pyStartsWith raw "```" then
    let r1 := String.mk (pyStripOn (fun c => c == '`') raw.data)
    if lowerTake4 r1 == "json" then String.mk (pyLstrip (r1.data.drop 4)) else r1
  else raw

/-- The brace-scanning fallback of src/enrich_post.py:139-145:
`start = raw.find("{")`, `end = raw.rfind("}")`, and the slice
`raw[start:end+1]` when both exist with `end > start`. -/
def braceSlice (raw : String) : Option String :=
  match raw.data.findIdx? (fun c => c == '{'), raw.data.reverse.findIdx? (fun c => c == '}') with
  | some st, some revEn =>
    if st < raw.data.length - 1 - revEn then
      some (String.mk ((raw.data.drop st).take (raw.data.length - 1 - revEn + 1 - st)))
    else none
  | _, _ => none

/-- The parse chain of `generate_seo_fields` (src/enrich_post.py:124-145):
strip, strip fences, try `json.loads`, and on failure try the brace-scanning
fallback. -/
def seo_parsed (txt : String) : Option JVal :=
  match json_loads (stripFencesTriple (pyStripS txt)) with
  | some v => some v
  | none =>
    match braceSlice (stripFencesTriple (pyStripS txt)) with
    | some sub => json_loads sub
    | none => none

/-- The default mapping substituted when parsing fails or yields a non-dict
(src/enrich_post.py:146-147). -/
def defaultSeo : List (String × JVal) := [("headline", JVal.jstr ""), ("description", JVal.jstr "")]

/-- The `data` dict held by `generate_seo_fields` after lines 134-147 of
src/enrich_post.py: the parsed object, or the empty-field default when no
parse produced a dict. -/
def seo_data (txt : String) : List (String × JVal) :=
  match seo_parsed txt with
  | some (JVal.jobj kvs) => kvs
  | _ => defaultSeo

/-- `sanitize` of src/enrich_post.py:28-33: remove bold markers and em
dashes, strip whitespace, strip surrounding double quotes, strip again. -/
def sanitize (s : String) : String :=
  if s == "" then ""
  else pyStripS (String.mk (pyStripOn (fun c => c == '"')
    (pyStripS (((s.replace "**" "").replace "__" "").replace "—" "-")).data))

/-- `data.get(k, "")` followed by use as a string: `none` models the
`AttributeError` Python would raise on a non-string field. -/
def jGetStr (kvs : List (String × JVal)) (k : String) : Option String :=
  match kvs.lookup k with
  | none => some ""
  | some (JVal.jstr s) => some s
  | some _ => none

def HEADLINE_MAX : Nat := 70

def DESC_MAX : Nat := 160

/-- One SEO field after lines 149-156 of src/enrich_post.py: sanitize,
soft-trim at the bound, then `" ".join(field.split())`. -/
def seoField (x : String) (limit : Nat) : String :=
  String.mk (collapseWs (Enrich.soft_trim (sanitize x) limit).data)

/-- The pure tail of `generate_seo_fields` (src/enrich_post.py:124-158),
from the extracted model text to the returned
`{"headline": ..., "description": ...}` pair. -/
def generate_seo_fields (txt : String) : Option (String × String) :=
  match jGetStr (seo_data txt) "headline", jGetStr (seo_data txt) "description" with
  | some h, some d => some (seoField h HEADLINE_MAX, seoField d DESC_MAX)
  | _, _ => none

/-- `parse_model_json_text` of src/Twitter/tweetify_post.py:89-111: strip,
strip fences, `json.loads`; on failure print a diagnostic and `sys.exit(1)`,
modelled as `Except.error 1`. -/
def parse_model_json_text (txt : String) : Except Nat JVal :=
  match json_loads (stripFencesTwitter (pyStripS (pyOrEmpty txt))) with
  | some v => Except.ok v
  | none => Except.error 1

/-- Claim C4: a JSON object wrapped in a fenced ```` ```json ```` block
parses to the expected mapping, and JSON embedded in prose (failing the
direct parse) is recovered by the first-brace/last-brace fallback. -/
theorem C4_model_response_parsing :
    (seo_data "```json\n\x7b\"headline\":\"H\",\"description\":\"D\"\x7d\n```").lookup "headline"
        = some (JVal.jstr "H") ∧
    (seo_data "```json\n\x7b\"headline\":\"H\",\"description\":\"D\"\x7d\n```").lookup "description"
        = some (JVal.jstr "D") ∧
    (seo_data "Sure! Here is it: \x7b\"headline\":\"H\"\x7d thanks").lookup "headline"
        = some (JVal.jstr "H") := by
  refine ⟨rfl, rfl, rfl⟩

/-- Claim C5: when both the direct JSON parse and the brace-scanning
fallback fail, `generate_seo_fields` substitutes the empty-field default and
returns normally (the Enrich stage continues), while the Twitter
`parse_model_json_text` — whose sole deliverable is the parsed JSON — exits
with status 1. -/
theorem C5_parse_failure_policy (t1 t2 : String)
    (h1 : seo_parsed t1 = none)
    (h2 : json_loads (stripFencesTwitter (pyStripS (pyOrEmpty t2))) = none) :
    seo_data t1 = defaultSeo ∧
    generate_seo_fields t1 = some ("", "") ∧
    parse_model_json_text t2 = Except.error 1 := by
  have hd : seo_data t1 = defaultSeo := by
    unfold seo_data; rw [h1]
  refine ⟨hd, ?_, ?_⟩
  · unfold generate_seo_fields
    rw [hd]
    rfl
  · unfold parse_model_json_text
    rw [h2]

/-- Witness for C5 at concrete unparseable model outputs. -/
theorem C5_parse_failure_policy_witness :
    seo_data "no json here" = defaultSeo ∧
    generate_seo_fields "no json here" = some ("", "") ∧
    parse_model_json_text "also no json" = Except.error 1 :=
  C5_parse_failure_policy "no json here" "also no json" rfl rfl

/-- Python `dict.pop(k, None)` on an association list: drop the binding of
`k`, keeping the order of the others. -/
def eraseKey (k : String) (d : List (String × JVal)) : List (String × JVal) :=
  d.filter (fun p => !(p.1 == k))

/-- `(d or {}).get(k, dflt)`. -/
def jGet (d : List (String × JVal)) (k : String) (dflt : JVal) : JVal :=
  (d.lookup k).getD dflt

/-- Repurpose output of src/tweetify_post.py:207-212: copy the input
document, remove `seo`, replace `content` with the tweet text. -/
def tweetify_out (data : List (String × JVal)) (tweetText : String) : List (String × JVal) :=
  setKey "content" (JVal.jstr tweetText) (eraseKey "seo" data)

/-- Repurpose output of src/Twitter/tweetify_post.py:227-240: a fresh
document with `content`, `url` and `published_at` copied from the source
(defaulting to the empty string) and the selected images. -/
def twitter_out (src : List (String × JVal)) (tweetText : String) (images : List JVal) :
    List (String × JVal) :=
  [("content", JVal.jstr tweetText),
   ("url", jGet src "url" (JVal.jstr "")),
   ("published_at", jGet src "published_at" (JVal.jstr "")),
   ("images", JVal.jarr images)]

theorem lookupConsEq (q k : String) (v : JVal) (rest : List (String × JVal)) :
    List.lookup q ((k, v) :: rest) = if q == k then some v else List.lookup q rest := by
  cases h : q == k <;> simp [List.lookup, h]

theorem lookup_setKey_ne {k q : String} (hne : q ≠ k) (v : JVal) (d : List (String × JVal)) :
    (setKey k v d).lookup q = d.lookup q := by
  have hqk : (q == k) = false := by simpa using hne
  induction d with
  | nil => simp [setKey, lookupConsEq, hqk]
  | cons p rest ih =>
    obtain ⟨k', v'⟩ := p
    unfold setKey
    by_cases hp : k' == k
    · rw [if_pos hp]
      have hk : k' = k := by simpa using hp
      subst hk
      rw [lookupConsEq, lookupConsEq, hqk]
      simp
    · rw [if_neg hp, lookupConsEq, lookupConsEq]
      by_cases hq : q == k'
      · simp [hq]
      · simp only [hq, Bool.false_eq_true, if_false]
        exact ih

theorem lookup_eraseKey_self (k : String) (d : List (String × JVal)) :
    (eraseKey k d).lookup k = none := by
  induction d with
  | nil => rfl
  | cons p rest ih =>
    obtain ⟨k', v'⟩ := p
    unfold eraseKey at ih ⊢
    by_cases hp : k' == k
    · rw [List.filter_cons_of_neg (by simp [hp])]
      exact ih
    · rw [List.filter_cons_of_pos (by simp [hp])]
      have hk : (k == k') = false := by
        have : ¬k' = k := by simpa using hp
        simp [Ne.symm this]
      rw [lookupConsEq, hk]
      simp only [Bool.false_eq_true, if_false]
      exact ih

theorem lookup_eraseKey_ne {k q : String} (hne : q ≠ k) (d : List (String × JVal)) :
    (eraseKey k d).lookup q = d.lookup q := by
  induction d with
  | nil => rfl
  | cons p rest ih =>
    obtain ⟨k', v'⟩ := p
    unfold eraseKey at ih ⊢
    by_cases hp : k' == k
    · rw [List.filter_cons_of_neg (by simp [hp])]
      have hk : k' = k := by simpa using hp
      subst hk
      have hq : (q == k') = false := by simpa using hne
      rw [lookupConsEq, hq]
      simp only [Bool.false_eq_true, if_false]
      exact ih
    · rw [List.filter_cons_of_pos (by simp [hp])]
      rw [lookupConsEq, lookupConsEq]
      by_cases hq : q == k'
      · simp [hq]
      · simp only [hq, Bool.false_eq_true, if_false]
        exact ih

/-- Claim C7: both Repurpose variants keep `url` and `published_at` equal to
the input document's values, and their output contains no `seo` field. -/
theorem C7_repurpose_frame (d : List (String × JVal)) (tw tw' : String)
    (imgs : List JVal) (u p : JVal)
    (hu : d.lookup "url" = some u) (hp : d.lookup "published_at" = some p) :
    (tweetify_out d tw).lookup "url" = some u ∧
    (tweetify_out d tw).lookup "published_at" = some p ∧
    (tweetify_out d tw).lookup "seo" = none ∧
    (twitter_out d tw' imgs).lookup "url" = some u ∧
    (twitter_out d tw' imgs).lookup "published_at" = some p ∧
    (twitter_out d tw' imgs).lookup "seo" = none := by
  refine ⟨?_, ?_, ?_, ?_, ?_, ?_⟩
  · rw [tweetify_out, lookup_setKey_ne (by decide), lookup_eraseKey_ne (by decide), hu]
  · rw [tweetify_out, lookup_setKey_ne (by decide), lookup_eraseKey_ne (by decide), hp]
  · rw [tweetify_out, lookup_setKey_ne (by decide), lookup_eraseKey_self]
  · rw [twitter_out, lookupConsEq, if_neg (by decide), lookupConsEq, if_pos (by decide),
      jGet, hu]
    rfl
  · rw [twitter_out, lookupConsEq, if_neg (by decide), lookupConsEq, if_neg (by decide),
      lookupConsEq, if_pos (by decide), jGet, hp]
    rfl
  · rfl

/-- Witness for C7 at a concrete enriched document. -/
theorem C7_repurpose_frame_witness :
    (tweetify_out [("content", JVal.jstr "c"), ("url", JVal.jstr "u"),
        ("published_at", JVal.jstr "t"), ("seo", JVal.jobj [])] "tweet").lookup "url"
      = some (JVal.jstr "u") ∧
    (tweetify_out [("content", JVal.jstr "c"), ("url", JVal.jstr "u"),
        ("published_at", JVal.jstr "t"), ("seo", JVal.jobj [])] "tweet").lookup "seo"
      = none ∧
    (twitter_out [("content", JVal.jstr "c"), ("url", JVal.jstr "u"),
        ("published_at", JVal.jstr "t"), ("seo", JVal.jobj [])] "tweet" []).lookup "url"
      = some (JVal.jstr "u") := by
  have h := C7_repurpose_frame
    [("content", JVal.jstr "c"), ("url", JVal.jstr "u"),
     ("published_at", JVal.jstr "t"), ("seo", JVal.jobj [])]
    "tweet" "tweet" [] (JVal.jstr "u") (JVal.jstr "t") rfl rfl
  exact ⟨h.1, h.2.2.1, h.2.2.2.1⟩

/-- One entry of the `images` array: `url`/`alt` may be missing. -/
structure ImgEntry where
  url : Option String
  alt : Option String

/-- The loop-body guards of the Enrich alt-text loop
(src/enrich_post.py:221-228): an entry is passed to the alt-text generator
exactly when `img.get("url")` is truthy and
`(img.get("alt") or "").strip()` is empty. -/
def img_alt_needed (img : ImgEntry) : Bool :=
  match img.url with
  | none => false
  | some u => if u == "" then false else (pyStripS (img.alt.getD "") == "")

/-- Indices (counting from `k`) of the image entries the Enrich loop passes
to the alt-text generator, in loop order. -/
def altCallIndicesFrom (k : Nat) : List ImgEntry → List Nat
  | [] => []
  | img :: rest =>
    if img_alt_needed img then k :: altCallIndicesFrom (k + 1) rest
    else altCallIndicesFrom (k + 1) rest

/-- Indices of the image entries passed to the alt-text generator by the
Enrich loop (src/enrich_post.py:220-235). -/
def altCallIndices (imgs : List ImgEntry) : List Nat := altCallIndicesFrom 0 imgs

theorem altFromGe (imgs : List ImgEntry) :
    ∀ k n, n ∈ altCallIndicesFrom k imgs → k ≤ n := by
  induction imgs with
  | nil => intro k n h; simp [altCallIndicesFrom] at h
  | cons img rest ih =>
    intro k n h
    unfold altCallIndicesFrom at h
    by_cases hc : img_alt_needed img
    · rw [if_pos hc] at h
      rcases List.mem_cons.mp h with h | h
      · exact h ▸ Nat.le_refl k
      · exact Nat.le_of_succ_le (ih (k + 1) n h)
    · rw [if_neg hc] at h
      exact Nat.le_of_succ_le (ih (k + 1) n h)

theorem altCallCountFrom (imgs : List ImgEntry) :
    ∀ k i (h : i < imgs.length),
      (altCallIndicesFrom k imgs).count (k + i) =
        if img_alt_needed (imgs.get ⟨i, h⟩) then 1 else 0 := by
  induction imgs with
  | nil => intro k i h; exact absurd h (Nat.not_lt_zero i)
  | cons img rest ih =>
    intro k i h
    cases i with
    | zero =>
      unfold altCallIndicesFrom
      have hz : k + 0 = k := by omega
      have hnm : k ∉ altCallIndicesFrom (k + 1) rest := by
        intro hmem
        have := altFromGe rest (k + 1) k hmem
        omega
      have hget : ((img :: rest).get ⟨0, h⟩) = img := rfl
      rw [hget, hz]
      by_cases hc : img_alt_needed img
      · rw [if_pos hc, if_pos hc, List.count_cons_self, List.count_eq_zero.mpr hnm]
      · rw [if_neg hc, if_neg hc]
        exact List.count_eq_zero.mpr hnm
    | succ i' =>
      have h' : i' < rest.length := Nat.lt_of_succ_lt_succ h
      unfold altCallIndicesFrom
      have hrec := ih (k + 1) i' h'
      have harith : k + (i' + 1) = (k + 1) + i' := by omega
      by_cases hc : img_alt_needed img
      · rw [if_pos hc]
        have hne : k + (i' + 1) ≠ k := by omega
        rw [List.count_cons_of_ne hne, harith, hrec]
        rfl
      · rw [if_neg hc, harith, hrec]
        rfl

/-- Claim C6 (amended): the Enrich loop passes an image entry to the
alt-text generator exactly once when its `url` is present and non-empty and
its `alt` is missing or whitespace-blank, and never otherwise — in
particular an entry with a non-empty `alt`, or one with a missing or empty
`url`, is never passed. -/
theorem C6_alt_selection (imgs : List ImgEntry) (i : Nat) (h : i < imgs.length) :
    (altCallIndices imgs).count i =
      if img_alt_needed (imgs.get ⟨i, h⟩) then 1 else 0 := by
  have hc := altCallCountFrom imgs 0 i h
  simpa using hc

/-- Counterexample to claim C6 as stated: an image entry with a missing
`alt` but also a missing `url` is skipped by the `if not url: continue`
guard, so it is passed to the alt-text generator zero times, not once. -/
theorem C6_counterexample :
    (altCallIndices [{ url := none, alt := none }]).count 0 = 0 ∧
    ¬ ((altCallIndices [{ url := none, alt := none }]).count 0 = 1) := by
  refine ⟨rfl, by decide⟩

/-- Witness for C6: an entry with a url and an empty alt is passed exactly
once; an entry with existing alt text is never passed. -/
theorem C6_alt_selection_witness :
    (altCallIndices [{ url := some "http://a/i.jpg", alt := some "" },
        { url := some "http://a/j.jpg", alt := some "existing" }]).count 0 = 1 ∧
    (altCallIndices [{ url := some "http://a/i.jpg", alt := some "" },
        { url := some "http://a/j.jpg", alt := some "existing" }]).count 1 = 0 := by
  constructor
  · have h := C6_alt_selection
      [{ url := some "http://a/i.jpg", alt := some "" },
       { url := some "http://a/j.jpg", alt := some "existing" }] 0 (by decide)
    simpa using h
  · have h := C6_alt_selection
      [{ url := some "http://a/i.jpg", alt := some "" },
       { url := some "http://a/j.jpg", alt := some "existing" }] 1 (by decide)
    simpa using h

theorem dropWhileLenLe (p : Char → Bool) (l : List Char) :
    (l.dropWhile p).length ≤ l.length := by
  induction l with
  | nil => simp
  | cons c cs ih =>
    by_cases hc : p c
    · rw [List.dropWhile_cons_of_pos hc]
      exact le_trans ih (Nat.le_succ _)
    · rw [List.dropWhile_cons_of_neg hc]

/-- ASCII model of the regex class `\w`. -/
def isWordChar (c : Char) : Bool := c.isAlphanum || c == '_'

/-- Scanner for `re.sub(r"(?:^|\s)#\w+", "", s)` away from the string
start: a whitespace character followed by the tag and at least one word
character is consumed together with the token (the regex match includes the
leading whitespace), and scanning resumes after the word run. -/
def subTagGo (tag : Char) : List Char → List Char
  | [] => []
  | c :: cs =>
    if pyIsSpace c &&
        (match cs with
         | t :: r => t == tag && (match r with | w :: _ => isWordChar w | [] => false)
         | [] => false) then
      subTagGo tag (cs.tail.dropWhile isWordChar)
    else c :: subTagGo tag cs
termination_by l => l.length
decreasing_by
  · have h1 := dropWhileLenLe isWordChar cs.tail
    have h2 : cs.tail.length ≤ cs.length := by
      cases cs <;> simp
    simp only [List.length_cons]
    omega
  · simp

/-- `re.sub(r"(?:^|\s)#\w+", "", s)` (src/tweetify_post.py:52-53, with
`tag` also instantiated at `@`): the `^` alternative can only fire at the
very start of the string. -/
def subTagStart (tag : Char) (cs : List Char) : List Char :=
  match cs with
  | t :: r =>
    if t == tag && (match r with | w :: _ => isWordChar w | [] => false) then
      subTagGo tag (r.dropWhile isWordChar)
    else subTagGo tag cs
  | [] => []

/-- `sanitize_tweet` of src/tweetify_post.py:43-56: drop bold/underline
markers, normalize em dashes, remove straight and curly quotes, remove
hashtag and mention tokens, collapse whitespace and strip. -/
def sanitize_tweet (s : String) : String :=
  if s == "" then ""
  else
    let s1 := (s.replace "**" "").replace "__" ""
    let s2 := s1.replace "—" "-"
    let s3 := ((((s2.replace "\"" "").replace (String.mk [Char.ofNat 39]) "").replace
      "“" "").replace "”" "").replace "’" ""
    let s4 := subTagStart '#' s3.data
    let s5 := subTagStart '@' s4
    pyStripS (String.mk (collapseWs s5))

/-- The pure tail of `generate_tweet` (src/tweetify_post.py:143-154): strip
the extracted model text, strip code fences, sanitize, soft-trim to the
tweet budget. -/
def generate_tweet (rawModel : String) (tweet_max : Nat) : String :=
  Tweetify.soft_trim (sanitize_tweet (stripFencesTriple (pyStripS rawModel))) tweet_max

/-- The `content` field written by the root Repurpose stage
(src/tweetify_post.py:198-212): the generated tweet, or — when it is empty —
the soft-trimmed normalized source content (`tweet_text = soft_trim(source_text,
tweet_max)` emergency fallback). -/
def mainTweetContent (unescape : String → String) (modelRaw contentHtml : String)
    (tweet_max : Nat) : String :=
  if generate_tweet modelRaw tweet_max == "" then
    Tweetify.soft_trim (strip_html_to_text unescape contentHtml) tweet_max
  else generate_tweet modelRaw tweet_max

/-- Claim C10 (amended): whenever the processed model tweet is empty, the
written content is the soft-trimmed normalized source content at the same
limit; consequently the written content is empty only if that soft-trimmed
source text is itself empty (which can happen for a non-empty source — see
the counterexample). -/
theorem C10_empty_tweet_fallback (u : String → String) (raw html : String) (m : Nat) :
    (generate_tweet raw m = "" →
      mainTweetContent u raw html m = Tweetify.soft_trim (strip_html_to_text u html) m) ∧
    (mainTweetContent u raw html m = "" →
      Tweetify.soft_trim (strip_html_to_text u html) m = "") := by
  constructor
  · intro h
    unfold mainTweetContent
    rw [if_pos (by simp [h])]
  · intro h
    by_cases hg : generate_tweet raw m = ""
    · unfold mainTweetContent at h
      rw [if_pos (by simp [hg])] at h
      exact h
    · unfold mainTweetContent at h
      rw [if_neg (by simpa using hg)] at h
      exact absurd h hg

/-- Counterexample to claim C10 as stated: with an empty model tweet and the
source content `"!!!!!"` at limit 4, the fallback trims to the 4-character
cut `"!!!!"` and then strips the trailing punctuation, leaving the written
content empty even though the normalized source content is non-empty. -/
theorem C10_counterexample :
    generate_tweet "" 4 = "" ∧
    mainTweetContent py_html_unescape "" "!!!!!" 4 = "" ∧
    strip_html_to_text py_html_unescape "!!!!!" = "!!!!!" ∧
    strip_html_to_text py_html_unescape "!!!!!" ≠ "" := by
  refine ⟨rfl, rfl, rfl, by decide⟩

/-- Witness for C10 at concrete inputs. -/
theorem C10_empty_tweet_fallback_witness :
    mainTweetContent py_html_unescape "" "hi there" 280 =
      Tweetify.soft_trim (strip_html_to_text py_html_unescape "hi there") 280 ∧
    Tweetify.soft_trim (strip_html_to_text py_html_unescape "") 280 = "" := by
  exact ⟨(C10_empty_tweet_fallback py_html_unescape "" "hi there" 280).1 rfl,
         (C10_empty_tweet_fallback py_html_unescape "" "" 280).2 rfl⟩
